import Mathlib

/-
Shallow embedding of the automodwrap export generator (src/main.py).

The program walks a clang declaration tree (`Cursor`), filters names by
regex-based rules, accumulates surviving names in an `ExportedNameMap`
(Python: a dataclass holding a set `top_level` and a dict `qualified`),
and renders the map as a nested, sorted C++ `export` block.

Modelling conventions:
  * A Python `set` of strings is modelled as a duplicate-free list built by
    `addTopLevel` (add-if-absent); a Python 3.7+ `dict` is modelled as an
    insertion-ordered association list with in-place update (`updateKey`).
  * A compiled regex used via `.search` is modelled as a `String → Bool`
    predicate; the three concrete regexes of the source are translated
    alternative-by-alternative below (all their alternatives are anchored
    with `^` or `$`, so `.search` semantics coincide with the predicates).
  * `cursor.location.file` is `Option String`; evaluating `.name` on an
    absent file raises `AttributeError` in Python, so the traversal lives
    in `Except String`.
-/

namespace Automodwrap

/-- ASCII word character, the regex class `[a-zA-Z0-9_]`. -/
def isWordChar (c : Char) : Bool :=
  c.isAlpha || c.isDigit || c == '_'

/-- Helper: `endsWithClass cls suf l` decides whether `l` ends with one character
satisfying `cls` immediately followed by the suffix `suf` — the shape of the
regex fragments `[_0-9]impl$` and `[a-z0-9_]Impl$`. -/
def endsWithClass (cls : Char → Bool) (suf : List Char) : List Char → Bool
  | [] => false
  | c :: rest => (rest == suf && cls c) || endsWithClass cls suf rest

/-- Model of `ExportedNamesCollector._IDENTIFIER_REGEX`, the fixed rule
`(^[a-zA-Z_][a-zA-Z0-9_]*$|^operator\b)` used via `.search`: either the whole
spelling is a plain identifier, or it starts with `operator` followed by a
word boundary (end of string or a non-word character). -/
def identMatch (s : String) : Bool :=
  (match s.data with
   | [] => false
   | c :: rest => (c.isAlpha || c == '_') && rest.all isWordChar)
  || (List.isPrefixOf "operator".data s.data &&
      (match s.data.drop 8 with
       | [] => true
       | d :: _ => !(isWordChar d)))

/-- Default `ignored_namespaces_regex`:
`(^_|^(std|[Dd]etails?|[Pp]rivate|[Ii]mpl|[Ii]ntern(al)?)$)`. -/
def defaultIgnoredNamespacesMatch (s : String) : Bool :=
  (match s.data with
   | c :: _ => c == '_'
   | [] => false)
  || ["std", "Detail", "Details", "detail", "details", "Private", "private",
      "Impl", "impl", "Intern", "Internal", "intern", "internal"].contains s

/-- Default `ignored_names_regex`:
`(^_|(^[Ii]mpl|[_0-9]impl|[a-z0-9_]Impl)$)` — starts with `_`, or is exactly
`Impl`/`impl`, or ends in `[_0-9]impl`, or ends in `[a-z0-9_]Impl`. -/
def defaultIgnoredNamesMatch (s : String) : Bool :=
  (match s.data with
   | c :: _ => c == '_'
   | [] => false)
  || s == "Impl" || s == "impl"
  || endsWithClass (fun c => c == '_' || c.isDigit) "impl".data s.data
  || endsWithClass (fun c => c.isLower || c.isDigit || c == '_') "Impl".data s.data

/-- The cursor kinds the traversal distinguishes: `NAMESPACE`, the ten
members of `COMMON_DECL_KINDS`, declaration kinds outside that set
(`LINKAGE_SPEC`, `UNEXPOSED_DECL`, and a generic other-declaration kind),
and non-declaration kinds (`TRANSLATION_UNIT`, everything else). -/
inductive CursorKind where
  | namespaceDecl
  | structDecl
  | unionDecl
  | classDecl
  | enumDecl
  | functionDecl
  | typedefDecl
  | functionTemplate
  | classTemplate
  | namespaceAlias
  | typeAliasDecl
  | linkageSpec
  | unexposedDecl
  | otherDecl
  | translationUnit
  | nonDecl
deriving DecidableEq, Repr

/-- Model of `cursor.kind.is_declaration()`: true for clang declaration kinds.
(`TRANSLATION_UNIT` is not in clang's declaration range.) -/
def CursorKind.isDeclaration : CursorKind → Bool
  | .translationUnit => false
  | .nonDecl => false
  | _ => true

/-- Model of `COMMON_DECL_KINDS`, in source order. -/
def COMMON_DECL_KINDS : List CursorKind :=
  [.structDecl, .unionDecl, .classDecl, .enumDecl, .functionDecl,
   .typedefDecl, .functionTemplate, .classTemplate, .namespaceAlias,
   .typeAliasDecl]

/-- A clang cursor as the collector sees it: `kind()`, `spelling()`,
`location.file` (absent for compiler-synthesized nodes; when present we keep
its `.name` path), and the ordered `get_children()`. -/
inductive Cursor where
  | mk : CursorKind → String → Option String → List Cursor → Cursor
deriving Repr

def Cursor.kind : Cursor → CursorKind
  | .mk k _ _ _ => k

def Cursor.spelling : Cursor → String
  | .mk _ s _ _ => s

def Cursor.locationFile : Cursor → Option String
  | .mk _ _ f _ => f

def Cursor.children : Cursor → List Cursor
  | .mk _ _ _ cs => cs

/-- The `ExportedNameMap` dataclass: `top_level : Set[str]` (modelled as a
duplicate-free list) and `qualified : Dict[str, ExportedNameMap]` (modelled
as an insertion-ordered association list). -/
inductive ExportedNameMap where
  | mk : List String → List (String × ExportedNameMap) → ExportedNameMap

def ExportedNameMap.top_level : ExportedNameMap → List String
  | .mk t _ => t

def ExportedNameMap.qualified : ExportedNameMap → List (String × ExportedNameMap)
  | .mk _ q => q

/-- The empty `ExportedNameMap()`. -/
def emptyMap : ExportedNameMap := .mk [] []

/-- Dict lookup `d[k]` / `k in d` (first, i.e. unique, binding). -/
def lookupKey (k : String) : List (String × ExportedNameMap) → Option ExportedNameMap
  | [] => none
  | (k', v) :: rest => if k' == k then some v else lookupKey k rest

/-- Dict update `d[k] = v`: replace the binding in place if the key is
present, append a new binding otherwise (Python 3.7+ dicts preserve
insertion order). -/
def updateKey (k : String) (v : ExportedNameMap) :
    List (String × ExportedNameMap) → List (String × ExportedNameMap)
  | [] => [(k, v)]
  | (k', w) :: rest =>
      if k' == k then (k', v) :: rest else (k', w) :: updateKey k v rest

/-- Model of `set.add`: insert if absent. -/
def addTopLevel (nm : ExportedNameMap) (s : String) : ExportedNameMap :=
  match nm with
  | .mk t q => if t.contains s then .mk t q else .mk (t ++ [s]) q

/-- Helper: `setQualified nm k v` is `nm.qualified[k] = v` on the enclosing map. -/
def setQualified (nm : ExportedNameMap) (k : String) (v : ExportedNameMap) :
    ExportedNameMap :=
  match nm with
  | .mk t q => .mk t (updateKey k v q)

/-- The three compiled patterns held by `ExportedNamesCollector.__init__`,
each modelled as the boolean `.search` predicate of the compiled regex. -/
structure CollectorConfig where
  includePathsMatch : String → Bool
  ignoredNamespacesMatch : String → Bool
  ignoredNamesMatch : String → Bool

/-- The constructor defaults: `include_paths_regex = '.*'` (matches every
path, including the empty one) and the two default ignore regexes. -/
def defaultConfig : CollectorConfig :=
  { includePathsMatch := fun _ => true
    ignoredNamespacesMatch := defaultIgnoredNamespacesMatch
    ignoredNamesMatch := defaultIgnoredNamesMatch }

/-- The Python `AttributeError` raised by `cursor.location.file.name` when
`cursor.location.file` is `None`. -/
def attributeErrorMsg : String :=
  "AttributeError: NoneType object has no attribute name"

mutual

/-- Model of `ExportedNamesCollector._traverse`, with the mutable name-map stack
rendered as state threading: the function receives the current scope and
returns the updated current scope.  The branch structure follows the source
line by line; note that `not cursor.kind.is_declaration()` short-circuits
before `cursor.location.file.name` is evaluated, so an absent file only
raises for declaration kinds. -/
def traverse (cfg : CollectorConfig) : Cursor → ExportedNameMap →
    Except String ExportedNameMap
  | .mk k s f kids, nm =>
    if k.isDeclaration = false then .ok nm
    else
      match f with
      | none => .error attributeErrorMsg
      | some path =>
        if cfg.includePathsMatch path = false then .ok nm
        else if k == CursorKind.namespaceDecl || COMMON_DECL_KINDS.contains k then
          if identMatch s = false then .ok nm
          else if k == CursorKind.namespaceDecl then
            if cfg.ignoredNamespacesMatch s then .ok nm
            else
              match traverseChildren cfg kids
                  ((lookupKey s nm.qualified).getD emptyMap) with
              | .error e => .error e
              | .ok child => .ok (setQualified nm s child)
          else
            if cfg.ignoredNamesMatch s then .ok nm
            else .ok (addTopLevel nm s)
        else traverseChildren cfg kids nm

/-- Model of `ExportedNamesCollector._traverse_children`: fold `_traverse` over the
ordered children, propagating an exception. -/
def traverseChildren (cfg : CollectorConfig) : List Cursor → ExportedNameMap →
    Except String ExportedNameMap
  | [], nm => .ok nm
  | c :: rest, nm =>
    match traverse cfg c nm with
    | .error e => .error e
    | .ok nm' => traverseChildren cfg rest nm'

end

/-- Model of `collect_names` followed by `get_collected_names`: walk the children of
the translation-unit cursor starting from a fresh root map. -/
def collect_names (cfg : CollectorConfig) (root : Cursor) :
    Except String ExportedNameMap :=
  traverseChildren cfg root.children emptyMap

/-- Case-insensitive-lexicographic comparison used as the sort key
`str.lower`: `lexLe a b` is code-point `≤` on the lists of characters. -/
def lexLe : List Char → List Char → Bool
  | [], _ => true
  | _ :: _, [] => false
  | a :: as, b :: bs => a < b || (a == b && lexLe as bs)

/-- The `sorted(·, key=str.lower)` comparison on names. -/
def lowerLe (a b : String) : Bool :=
  lexLe a.toLower.data b.toLower.data

/-- Stable insertion used by `sortListBy`: the new element goes in front of
the first element it is `le` to, so earlier elements win ties (Python's
`sorted` is stable). -/
def insertBy (le : α → α → Bool) (x : α) : List α → List α
  | [] => [x]
  | y :: ys => if le x y then x :: y :: ys else y :: insertBy le x ys

/-- Stable insertion sort modelling Python's `sorted`. -/
def sortListBy (le : α → α → Bool) : List α → List α
  | [] => []
  | x :: xs => insertBy le x (sortListBy le xs)

/-- Model of `sorted(name_map.top_level, key=str.lower)`. -/
def sortNames (l : List String) : List String :=
  sortListBy lowerLe l

/-- Model of `sorted(name_map.qualified.items(), key=lambda p: p[0].lower())`. -/
def sortPairs (l : List (String × ExportedNameMap)) :
    List (String × ExportedNameMap) :=
  sortListBy (fun p q => lowerLe p.1 q.1) l

theorem sizeOf_insertBy (le : α → α → Bool) [SizeOf α] (x : α) :
    ∀ l : List α, sizeOf (insertBy le x l) = sizeOf (x :: l) := by
  intro l
  induction l with
  | nil => simp [insertBy]
  | cons y ys ih =>
    simp only [insertBy]
    split
    · rfl
    · simp only [List.cons.sizeOf_spec] at ih ⊢
      omega

theorem sizeOf_sortListBy (le : α → α → Bool) [SizeOf α] :
    ∀ l : List α, sizeOf (sortListBy le l) = sizeOf l := by
  intro l
  induction l with
  | nil => rfl
  | cons x xs ih =>
    simp only [sortListBy, sizeOf_insertBy, List.cons.sizeOf_spec]
    omega

theorem sizeOf_sortPairs (l : List (String × ExportedNameMap)) :
    sizeOf (sortPairs l) = sizeOf l :=
  sizeOf_sortListBy _ l

mutual

/-- Model of `_generate_exports_impl`: the written lines of one scope.  The prefix
stack is passed explicitly (Python mutates `fqn_prefix_stack` around the
recursive call); `stack.getLastD ""` is `fqn_prefix_stack[-1]`. -/
def genImpl (stack : List String) : ExportedNameMap → List String
  | .mk top qual =>
    (sortNames top).map (fun n => "using " ++ stack.getLastD "" ++ n ++ ";")
      ++ genBlocks stack (stack.getLastD "") (sortPairs qual)
termination_by nm => sizeOf nm
decreasing_by
  simp only [ExportedNameMap.mk.sizeOf_spec, sizeOf_sortPairs]
  omega

/-- The `for namespace, inner_map in sorted(...)` loop body: opening line,
recursive scope with the extended prefix pushed, closing line. -/
def genBlocks (stack : List String) (pfx : String) :
    List (String × ExportedNameMap) → List String
  | [] => []
  | (ns, inner) :: rest =>
    ("namespace " ++ ns ++ " \x7b")
      :: (genImpl (stack ++ [pfx ++ ns ++ "::"]) inner ++ ["\x7d"])
      ++ genBlocks stack pfx rest
termination_by l => sizeOf l
decreasing_by
  · simp only [List.cons.sizeOf_spec, Prod.mk.sizeOf_spec]
    omega
  · simp only [List.cons.sizeOf_spec]
    omega

end

/-- Model of `generate_exports_from_name_map`: the full artifact as a list of written
lines — `export {`, the rendered root scope with initial prefix stack
`['::']`, and the closing `}`. -/
def generate_exports_from_name_map (nm : ExportedNameMap) : List String :=
  "export \x7b" :: genImpl ["::"] nm ++ ["\x7d"]

/-- The two statement forms of the output grammar, plus the closing marker
of a namespace block: a `using` re-export, a namespace opening line, or the
closing `}`. -/
def ExportLine (l : String) : Prop :=
  (∃ s, l = "using " ++ s ++ ";")
    ∨ (∃ n, l = "namespace " ++ n ++ " \x7b")
    ∨ l = "\x7d"

theorem lexLe_total : ∀ a b : List Char, lexLe a b = true ∨ lexLe b a = true := by
  intro a
  induction a with
  | nil => intro b; exact Or.inl rfl
  | cons x xs ih =>
    intro b
    cases b with
    | nil => exact Or.inr rfl
    | cons y ys =>
      simp only [lexLe, Bool.or_eq_true, Bool.and_eq_true, decide_eq_true_eq,
        beq_iff_eq]
      rcases lt_trichotomy x y with h | h | h
      · exact Or.inl (Or.inl h)
      · subst h
        rcases ih ys with h' | h'
        · exact Or.inl (Or.inr ⟨rfl, h'⟩)
        · exact Or.inr (Or.inr ⟨rfl, h'⟩)
      · exact Or.inr (Or.inl h)

theorem lexLe_trans : ∀ a b c : List Char,
    lexLe a b = true → lexLe b c = true → lexLe a c = true := by
  intro a
  induction a with
  | nil => intro b c _ _; rfl
  | cons x xs ih =>
    intro b c hab hbc
    cases b with
    | nil => simp [lexLe] at hab
    | cons y ys =>
      cases c with
      | nil => simp [lexLe] at hbc
      | cons z zs =>
        simp only [lexLe, Bool.or_eq_true, Bool.and_eq_true, decide_eq_true_eq,
          beq_iff_eq] at hab hbc ⊢
        rcases hab with h1 | ⟨rfl, h1⟩
        · rcases hbc with h2 | ⟨rfl, h2⟩
          · exact Or.inl (lt_trans h1 h2)
          · exact Or.inl h1
        · rcases hbc with h2 | ⟨rfl, h2⟩
          · exact Or.inl h2
          · exact Or.inr ⟨rfl, ih ys zs h1 h2⟩

theorem lowerLe_total (a b : String) : lowerLe a b = true ∨ lowerLe b a = true :=
  lexLe_total _ _

theorem lowerLe_trans (a b c : String) :
    lowerLe a b = true → lowerLe b c = true → lowerLe a c = true :=
  lexLe_trans _ _ _

theorem perm_insertBy (le : α → α → Bool) (x : α) :
    ∀ l : List α, (insertBy le x l).Perm (x :: l) := by
  intro l
  induction l with
  | nil => exact List.Perm.refl _
  | cons y ys ih =>
    simp only [insertBy]
    split
    · exact List.Perm.refl _
    · exact (ih.cons y).trans (List.Perm.swap x y ys)

theorem perm_sortListBy (le : α → α → Bool) :
    ∀ l : List α, (sortListBy le l).Perm l := by
  intro l
  induction l with
  | nil => exact List.Perm.refl _
  | cons x xs ih =>
    exact (perm_insertBy le x (sortListBy le xs)).trans (ih.cons x)

theorem pairwise_insertBy {le : α → α → Bool}
    (htot : ∀ a b, le a b = true ∨ le b a = true)
    (htrans : ∀ a b c, le a b = true → le b c = true → le a c = true)
    (x : α) :
    ∀ l : List α, l.Pairwise (fun a b => le a b = true) →
      (insertBy le x l).Pairwise (fun a b => le a b = true) := by
  intro l
  induction l with
  | nil => intro _; simp [insertBy]
  | cons y ys ih =>
    intro hp
    rcases List.pairwise_cons.mp hp with ⟨hy, hys⟩
    simp only [insertBy]
    split
    · rename_i hxy
      refine List.pairwise_cons.mpr ⟨?_, hp⟩
      intro b hb
      rcases List.mem_cons.mp hb with rfl | hb'
      · exact hxy
      · exact htrans x y b hxy (hy b hb')
    · rename_i hxy
      have hyx : le y x = true := by
        rcases htot x y with h | h
        · exact absurd h hxy
        · exact h
      refine List.pairwise_cons.mpr ⟨?_, ih hys⟩
      intro b hb
      rcases List.mem_cons.mp ((perm_insertBy le x ys).mem_iff.mp hb) with rfl | hb'
      · exact hyx
      · exact hy b hb'

theorem pairwise_sortListBy {le : α → α → Bool}
    (htot : ∀ a b, le a b = true ∨ le b a = true)
    (htrans : ∀ a b c, le a b = true → le b c = true → le a c = true) :
    ∀ l : List α, (sortListBy le l).Pairwise (fun a b => le a b = true) := by
  intro l
  induction l with
  | nil => simp [sortListBy]
  | cons x xs ih => exact pairwise_insertBy htot htrans x _ ih

theorem pairwise_sortNames (l : List String) :
    (sortNames l).Pairwise (fun a b => lowerLe a b = true) :=
  pairwise_sortListBy lowerLe_total lowerLe_trans l

theorem perm_sortNames (l : List String) : (sortNames l).Perm l :=
  perm_sortListBy _ l

theorem pairwise_sortPairs (l : List (String × ExportedNameMap)) :
    (sortPairs l).Pairwise (fun p q => lowerLe p.1 q.1 = true) :=
  pairwise_sortListBy (fun p q => lowerLe_total p.1 q.1)
    (fun p q r => lowerLe_trans p.1 q.1 r.1) l

theorem perm_sortPairs (l : List (String × ExportedNameMap)) : (sortPairs l).Perm l :=
  perm_sortListBy _ l

theorem lookupKey_updateKey (k : String) (v : ExportedNameMap) :
    ∀ l, lookupKey k (updateKey k v l) = some v := by
  intro l
  induction l with
  | nil => simp [updateKey, lookupKey]
  | cons p rest ih =>
    obtain ⟨k', w⟩ := p
    simp only [updateKey]
    split
    · rename_i h
      simp [lookupKey, h]
    · rename_i h
      simp [lookupKey, h, ih]

theorem updateKey_updateKey (k : String) (v w : ExportedNameMap) :
    ∀ l, updateKey k v (updateKey k w l) = updateKey k v l := by
  intro l
  induction l with
  | nil => simp [updateKey]
  | cons p rest ih =>
    obtain ⟨k', u⟩ := p
    simp only [updateKey]
    split
    · rename_i h
      simp [updateKey, h]
    · rename_i h
      simp [updateKey, h, ih]

theorem map_fst_updateKey (k : String) (v : ExportedNameMap) :
    ∀ l, (updateKey k v l).map Prod.fst =
      if k ∈ l.map Prod.fst then l.map Prod.fst else l.map Prod.fst ++ [k] := by
  intro l
  induction l with
  | nil => simp [updateKey]
  | cons p rest ih =>
    obtain ⟨k', w⟩ := p
    simp only [updateKey]
    split
    · rename_i h
      have hk : k' = k := by simpa using h
      subst hk
      simp
    · rename_i h
      have hk : ¬ k' = k := by simpa using h
      by_cases hm : k ∈ rest.map Prod.fst
      · simp [hm, ih, Ne.symm hk]
      · simp [hm, ih, Ne.symm hk]

theorem traverseChildren_append (cfg : CollectorConfig) :
    ∀ (l₁ l₂ : List Cursor) (nm : ExportedNameMap),
      traverseChildren cfg (l₁ ++ l₂) nm =
        match traverseChildren cfg l₁ nm with
        | .error e => .error e
        | .ok nm' => traverseChildren cfg l₂ nm' := by
  intro l₁
  induction l₁ with
  | nil => intro l₂ nm; simp [traverseChildren]
  | cons c rest ih =>
    intro l₂ nm
    simp only [List.cons_append, traverseChildren]
    cases traverse cfg c nm with
    | error e => rfl
    | ok nm' => exact ih l₂ nm'

theorem endsWithClass_iff (cls : Char → Bool) (suf : List Char) :
    ∀ l : List Char, endsWithClass cls suf l = true ↔
      ∃ t c, l = t ++ c :: suf ∧ cls c = true := by
  intro l
  induction l with
  | nil =>
    simp only [endsWithClass]
    constructor
    · intro h; cases h
    · rintro ⟨t, c, h, _⟩
      exact absurd h (by simp)
  | cons c₀ rest ih =>
    simp only [endsWithClass, Bool.or_eq_true, Bool.and_eq_true, beq_iff_eq, ih]
    constructor
    · rintro (⟨rfl, hc⟩ | ⟨t, c, rfl, hc⟩)
      · exact ⟨[], c₀, rfl, hc⟩
      · exact ⟨c₀ :: t, c, rfl, hc⟩
    · rintro ⟨t, c, h, hc⟩
      cases t with
      | nil =>
        simp only [List.nil_append, List.cons.injEq] at h
        obtain ⟨rfl, rfl⟩ := h
        exact Or.inl ⟨rfl, hc⟩
      | cons x t' =>
        simp only [List.cons_append, List.cons.injEq] at h
        obtain ⟨rfl, rfl⟩ := h
        exact Or.inr ⟨t', c, rfl, hc⟩

theorem usingLine_data (s : String) :
    ("using " ++ s ++ ";").data
      = 'u' :: 's' :: 'i' :: 'n' :: 'g' :: ' ' :: (s.data ++ [';']) := by
  obtain ⟨ls⟩ := s
  rfl

theorem nsLine_data (n : String) :
    ("namespace " ++ n ++ " \x7b").data
      = 'n' :: 'a' :: 'm' :: 'e' :: 's' :: 'p' :: 'a' :: 'c' :: 'e' :: ' '
          :: (n.data ++ [' ', '\x7b']) := by
  obtain ⟨ls⟩ := n
  rfl

theorem exportLine_ne_export {l : String} (h : ExportLine l) :
    l ≠ "export \x7b" := by
  rcases h with ⟨s, rfl⟩ | ⟨n, rfl⟩ | rfl
  · intro he
    have hd := congrArg String.data he
    rw [usingLine_data] at hd
    exact absurd (List.head_eq_of_cons_eq hd) (by decide)
  · intro he
    have hd := congrArg String.data he
    rw [nsLine_data] at hd
    exact absurd (List.head_eq_of_cons_eq hd) (by decide)
  · decide

theorem genImpl_eq (stack : List String) (top : List String)
    (qual : List (String × ExportedNameMap)) :
    genImpl stack (.mk top qual)
      = (sortNames top).map (fun n => "using " ++ stack.getLastD "" ++ n ++ ";")
        ++ genBlocks stack (stack.getLastD "") (sortPairs qual) := by
  simp [genImpl]

theorem genBlocks_cons (stack : List String) (pfx ns : String)
    (inner : ExportedNameMap) (rest : List (String × ExportedNameMap)) :
    genBlocks stack pfx ((ns, inner) :: rest)
      = ("namespace " ++ ns ++ " \x7b")
          :: (genImpl (stack ++ [pfx ++ ns ++ "::"]) inner ++ ["\x7d"])
          ++ genBlocks stack pfx rest := by
  simp [genBlocks]

theorem exportLine_aux : ∀ n : Nat,
    (∀ (nm : ExportedNameMap) (stack : List String), sizeOf nm ≤ n →
      ∀ l ∈ genImpl stack nm, ExportLine l)
    ∧ (∀ (ps : List (String × ExportedNameMap)) (stack : List String)
        (pfx : String), sizeOf ps ≤ n →
      ∀ l ∈ genBlocks stack pfx ps, ExportLine l) := by
  intro n
  induction n using Nat.strong_induction_on with
  | _ n ih =>
    constructor
    · intro nm stack hn l hl
      obtain ⟨top, qual⟩ := nm
      rw [genImpl_eq] at hl
      rcases List.mem_append.mp hl with h | h
      · rcases List.mem_map.mp h with ⟨a, _, rfl⟩
        exact Or.inl ⟨stack.getLastD "" ++ a, by simp [String.append_assoc]⟩
      · have hq : sizeOf qual < n := by
          have := ExportedNameMap.mk.sizeOf_spec top qual
          omega
        exact (ih (sizeOf qual) hq).2 (sortPairs qual) stack (stack.getLastD "")
          (le_of_eq (sizeOf_sortPairs qual)) l h
    · intro ps stack pfx hn l hl
      cases ps with
      | nil => simp [genBlocks] at hl
      | cons p rest =>
        obtain ⟨ns, inner⟩ := p
        rw [genBlocks_cons] at hl
        have hsz := List.cons.sizeOf_spec (ns, inner) rest
        have hpr : sizeOf (ns, inner) = 1 + sizeOf ns + sizeOf inner :=
          Prod.mk.sizeOf_spec ns inner
        rcases List.mem_append.mp hl with h | h
        · rcases List.mem_cons.mp h with rfl | h'
          · exact Or.inr (Or.inl ⟨ns, rfl⟩)
          · rcases List.mem_append.mp h' with h'' | h''
            · have hin : sizeOf inner < n := by omega
              exact (ih (sizeOf inner) hin).1 inner _ (le_refl _) l h''
            · obtain rfl := List.mem_singleton.mp h''
              exact Or.inr (Or.inr rfl)
        · have hre : sizeOf rest < n := by omega
          exact (ih (sizeOf rest) hre).2 rest stack pfx (le_refl _) l h

theorem traverse_namespace (cfg : CollectorConfig) (S p : String)
    (kids : List Cursor) (top : List String)
    (qual : List (String × ExportedNameMap))
    (hp : cfg.includePathsMatch p = true) (hid : identMatch S = true)
    (hig : cfg.ignoredNamespacesMatch S = false) :
    traverse cfg (.mk .namespaceDecl S (some p) kids) (.mk top qual)
      = match traverseChildren cfg kids ((lookupKey S qual).getD emptyMap) with
        | .error e => .error e
        | .ok child => .ok (.mk top (updateKey S child qual)) := by
  simp +decide [traverse, hp, hid, hig, ExportedNameMap.qualified, setQualified]

/-- Amended identifier rule, stated independently of the implementation: a
spelling is valid when it is a plain `[A-Za-z_][A-Za-z0-9_]*` identifier, or
when it begins with the literal text `operator` *followed by a word
boundary* — i.e. the spelling is exactly `operator`, or the character after
`operator` is not a word character. -/
def ValidIdentifierSpec (s : String) : Prop :=
  (∃ c rest, s.data = c :: rest ∧ (c.isAlpha = true ∨ c = '_')
    ∧ ∀ d ∈ rest, isWordChar d = true)
  ∨ ("operator".data <+: s.data
      ∧ (s.data.length = 8
         ∨ ∃ d t, s.data.drop 8 = d :: t ∧ isWordChar d = false))

theorem opBoundary_iff (l : List Char) (hpre : "operator".data <+: l) :
    (match l.drop 8 with
     | [] => true
     | d :: _ => !(isWordChar d)) = true
    ↔ (l.length = 8 ∨ ∃ d t, l.drop 8 = d :: t ∧ isWordChar d = false) := by
  have hlen : 8 ≤ l.length := by
    have := hpre.length_le
    simpa using this
  cases h8 : l.drop 8 with
  | nil =>
    have hle : l.length ≤ 8 := List.drop_eq_nil_iff.mp h8
    constructor
    · intro _
      exact Or.inl (le_antisymm hle hlen)
    · intro _
      rfl
  | cons d t =>
    simp only [Bool.not_eq_true']
    constructor
    · intro h
      exact Or.inr ⟨d, t, rfl, h⟩
    · rintro (hl8 | ⟨d', t', heq, hw⟩)
      · exfalso
        have hnil : l.drop 8 = [] := List.drop_eq_nil_iff.mpr (le_of_eq hl8)
        rw [h8] at hnil
        cases hnil
      · obtain ⟨rfl, rfl⟩ : d = d' ∧ t = t' :=
          ⟨(List.cons.inj heq).1, (List.cons.inj heq).2⟩
        exact hw

theorem identMatch_iff (s : String) :
    identMatch s = true ↔ ValidIdentifierSpec s := by
  obtain ⟨l⟩ := s
  show identMatch (String.mk l) = true ↔ ValidIdentifierSpec (String.mk l)
  simp only [identMatch, ValidIdentifierSpec, Bool.or_eq_true, Bool.and_eq_true,
    List.all_eq_true, List.isPrefixOf_iff_prefix]
  constructor
  · rintro (h | ⟨hpre, hb⟩)
    · cases l with
      | nil => cases h
      | cons c rest =>
        simp only [Bool.and_eq_true, Bool.or_eq_true, beq_iff_eq,
          List.all_eq_true] at h
        exact Or.inl ⟨c, rest, rfl, h.1, h.2⟩
    · exact Or.inr ⟨hpre, (opBoundary_iff l hpre).mp hb⟩
  · rintro (⟨c, rest, heq, hc, hall⟩ | ⟨hpre, hb⟩)
    · left
      have heq' : l = c :: rest := heq
      subst heq'
      simp only [Bool.and_eq_true, Bool.or_eq_true, beq_iff_eq, List.all_eq_true]
      exact ⟨hc, hall⟩
    · exact Or.inr ⟨hpre, (opBoundary_iff l hpre).mpr hb⟩

/-- Amended default ignored-name rule, stated independently of the
implementation: skipped iff the name starts with `_`, equals `Impl` or
`impl`, ends with an underscore or digit followed by `impl`, or ends with a
lowercase letter, digit, or underscore followed by `Impl`. -/
def IgnoredNameSpec (s : String) : Prop :=
  (∃ t, s.data = '_' :: t)
  ∨ s = "Impl" ∨ s = "impl"
  ∨ (∃ t c, s.data = t ++ c :: "impl".data ∧ (c = '_' ∨ c.isDigit = true))
  ∨ (∃ t c, s.data = t ++ c :: "Impl".data
      ∧ (c.isLower = true ∨ c.isDigit = true ∨ c = '_'))

theorem defaultIgnoredNamesMatch_iff (s : String) :
    defaultIgnoredNamesMatch s = true ↔ IgnoredNameSpec s := by
  obtain ⟨l⟩ := s
  show defaultIgnoredNamesMatch (String.mk l) = true ↔ IgnoredNameSpec (String.mk l)
  simp only [defaultIgnoredNamesMatch, IgnoredNameSpec, Bool.or_eq_true,
    beq_iff_eq, endsWithClass_iff]
  constructor
  · rintro ((((h | h) | h) | ⟨t, c, heq, hc⟩) | ⟨t, c, heq, hc⟩)
    · cases l with
      | nil => cases h
      | cons c rest =>
        refine Or.inl ⟨rest, ?_⟩
        have hc' : c = '_' := by simpa using h
        rw [hc']
    · exact Or.inr (Or.inl h)
    · exact Or.inr (Or.inr (Or.inl h))
    · refine Or.inr (Or.inr (Or.inr (Or.inl ⟨t, c, heq, ?_⟩)))
      simpa using hc
    · refine Or.inr (Or.inr (Or.inr (Or.inr ⟨t, c, heq, ?_⟩)))
      rcases (by simpa using hc : (c.isLower = true ∨ c.isDigit = true) ∨ c = '_') with (h | h) | h
      · exact Or.inl h
      · exact Or.inr (Or.inl h)
      · exact Or.inr (Or.inr h)
  · rintro (⟨t, heq⟩ | h | h | ⟨t, c, heq, hc⟩ | ⟨t, c, heq, hc⟩)
    · refine Or.inl (Or.inl (Or.inl (Or.inl ?_)))
      have heq' : l = '_' :: t := heq
      subst heq'
      rfl
    · exact Or.inl (Or.inl (Or.inl (Or.inr h)))
    · exact Or.inl (Or.inl (Or.inr h))
    · refine Or.inl (Or.inr ⟨t, c, heq, ?_⟩)
      simpa using hc
    · refine Or.inr ⟨t, c, heq, ?_⟩
      rcases hc with h | h | h
      · simp [h]
      · simp [h]
      · simp [h]

/-- The configuration built by `main`: `include_paths_regex =
f'^{include_path}'`, i.e. a `.search` that succeeds exactly on paths having
`include_path` as a prefix (assuming the path contains no regex
metacharacters), with the two default ignore patterns. -/
def mainConfig (includePath : String) : CollectorConfig :=
  { includePathsMatch := fun p => List.isPrefixOf includePath.data p.data
    ignoredNamespacesMatch := defaultIgnoredNamespacesMatch
    ignoredNamesMatch := defaultIgnoredNamesMatch }

theorem common_facts {k : CursorKind} (hk : k ∈ COMMON_DECL_KINDS) :
    k.isDeclaration = true ∧ (k == CursorKind.namespaceDecl) = false
      ∧ COMMON_DECL_KINDS.contains k = true := by
  have h : ∀ k' ∈ COMMON_DECL_KINDS, k'.isDeclaration = true
      ∧ (k' == CursorKind.namespaceDecl) = false
      ∧ COMMON_DECL_KINDS.contains k' = true := by decide
  exact h k hk

theorem traverse_leaf (cfg : CollectorConfig) (k : CursorKind) (S p : String)
    (kids : List Cursor) (nm : ExportedNameMap) (hk : k ∈ COMMON_DECL_KINDS) :
    traverse cfg (.mk k S (some p) kids) nm
      = if cfg.includePathsMatch p = false then .ok nm
        else if identMatch S = false then .ok nm
        else if cfg.ignoredNamesMatch S = true then .ok nm
        else .ok (addTopLevel nm S) := by
  obtain ⟨hd, hne, hcont⟩ := common_facts hk
  simp [traverse, hd, hne, hcont, hk]

/-- Claim C1: the spec says a declaration node with an absent origin path is
silently treated as non-matching and the run completes normally.  The code
instead evaluates `cursor.location.file.name` with `file = None` and raises
`AttributeError`, aborting the collection run: evaluating the traversal at a
declaration node with no origin file (clang produces such nodes for
compiler-synthesized declarations like the builtin `__int128_t` typedef)
yields the error, both for the single node and for a whole collection run
containing it. -/
theorem claim1_absent_origin_path_raises :
    traverse defaultConfig (.mk .typedefDecl "__int128_t" none []) emptyMap
      = .error attributeErrorMsg
    ∧ collect_names defaultConfig
        (.mk .translationUnit "t.h" none
          [.mk .typedefDecl "__int128_t" none [],
           .mk .functionDecl "visible" (some "/inc/t.h") []])
      = .error attributeErrorMsg := by
  constructor
  · simp +decide [traverse]
  · simp +decide [collect_names, traverseChildren, traverse, Cursor.children]

/-- Counterexample to claim C2 as stated: the spelling `operatorx+` begins
with the literal text `operator`, so the claim says it is a valid identifier
and the node is processed; the regex `^operator\b` requires a word boundary
after `operator`, so the code rejects it and skips the node and its whole
subtree (the namespace records nothing, including its child function). -/
theorem claim2_counterexample :
    List.isPrefixOf "operator".data "operatorx+".data = true
    ∧ identMatch "operatorx+" = false
    ∧ defaultIgnoredNamesMatch "operatorx+" = false
    ∧ traverse defaultConfig
        (.mk .namespaceDecl "operatorx+" (some "/inc/a.h")
          [.mk .functionDecl "inside" (some "/inc/a.h") []]) emptyMap
      = .ok emptyMap := by
  refine ⟨by decide, by decide, by decide, ?_⟩
  simp +decide [traverse]

/-- Claim C2, amended: a spelling is accepted iff it matches
`^[A-Za-z_][A-Za-z0-9_]*$` or begins with `operator` followed by a word
boundary (end of spelling, or a character that is not a letter, digit or
underscore); a spelling failing both causes the visited namespace- or
leaf-kind node and its entire subtree to be skipped. -/
theorem claim2_identifier_rule (cfg : CollectorConfig) (k : CursorKind)
    (S p : String) (kids : List Cursor) (nm : ExportedNameMap)
    (hk : k = .namespaceDecl ∨ k ∈ COMMON_DECL_KINDS)
    (hid : identMatch S = false) :
    traverse cfg (.mk k S (some p) kids) nm = .ok nm
    ∧ ∀ s, identMatch s = true ↔ ValidIdentifierSpec s := by
  refine ⟨?_, identMatch_iff⟩
  rcases hk with rfl | hk
  · by_cases hp : cfg.includePathsMatch p = true
    · simp +decide [traverse, hp, hid]
    · have hp' : cfg.includePathsMatch p = false := by simpa using hp
      simp +decide [traverse, hp']
  · rw [traverse_leaf cfg k S p kids nm hk]
    simp [hid]

/-- Witness for claim C2's amended theorem at a concrete input: the leaf
spelling `+bad` fails the identifier rule, so the function node is skipped
and nothing is recorded. -/
theorem claim2_identifier_rule_witness :
    (CursorKind.functionDecl = CursorKind.namespaceDecl
      ∨ CursorKind.functionDecl ∈ COMMON_DECL_KINDS)
    ∧ identMatch "+bad" = false
    ∧ (traverse defaultConfig (.mk .functionDecl "+bad" (some "/inc/a.h") [])
          emptyMap = .ok emptyMap
       ∧ ∀ s, identMatch s = true ↔ ValidIdentifierSpec s) :=
  ⟨Or.inr (by decide), by decide,
    claim2_identifier_rule defaultConfig .functionDecl "+bad" "/inc/a.h" []
      emptyMap (Or.inr (by decide)) (by decide)⟩

/-- Counterexample to claim C3 as stated: under the default configuration,
`AImpl` ends in `Impl` so the claim says it is skipped, but the regex suffix
alternative `[a-z0-9_]Impl$` requires a lowercase letter, digit or
underscore before `Impl`, so the code adds `AImpl` to the scope;
conversely `a0impl` does not end in `_impl` (and fails none of the claim's
other conditions) so the claim says it is added, but the regex alternative
`[_0-9]impl$` matches its `0impl` suffix and the code skips it. -/
theorem claim3_counterexample :
    traverse defaultConfig (.mk .functionDecl "AImpl" (some "/inc/a.h") [])
        emptyMap = .ok (.mk ["AImpl"] [])
    ∧ List.isSuffixOf "Impl".data "AImpl".data = true
    ∧ traverse defaultConfig (.mk .functionDecl "a0impl" (some "/inc/a.h") [])
        emptyMap = .ok emptyMap
    ∧ identMatch "a0impl" = true
    ∧ List.isSuffixOf "_impl".data "a0impl".data = false
    ∧ List.isSuffixOf "Impl".data "a0impl".data = false := by
  refine ⟨?_, by decide, ?_, by decide, by decide, by decide⟩
  · simp +decide [traverse, defaultConfig, addTopLevel, emptyMap]
  · simp +decide [traverse]

/-- Claim C3, amended: under the default configuration a leaf name is
skipped by the ignored-name rule iff it starts with an underscore, equals
`Impl` or `impl`, ends with an underscore or digit followed by `impl`, or
ends with a lowercase letter, digit or underscore followed by `Impl`; every
other valid leaf name passing the other filters is added to the current
scope's top-level set. -/
theorem claim3_default_ignored_names (k : CursorKind) (S p : String)
    (kids : List Cursor) (nm : ExportedNameMap)
    (hk : k ∈ COMMON_DECL_KINDS) (hid : identMatch S = true) :
    traverse defaultConfig (.mk k S (some p) kids) nm
      = .ok (if defaultIgnoredNamesMatch S = true then nm else addTopLevel nm S)
    ∧ ∀ s, defaultIgnoredNamesMatch s = true ↔ IgnoredNameSpec s := by
  refine ⟨?_, defaultIgnoredNamesMatch_iff⟩
  rw [traverse_leaf defaultConfig k S p kids nm hk]
  simp only [defaultConfig, hid]
  split
  · rename_i h
    cases h
  · split <;> rfl

/-- Witness for claim C3's amended theorem at a concrete input: the valid
leaf name `bar` is not ignored and is added to the scope. -/
theorem claim3_default_ignored_names_witness :
    CursorKind.functionDecl ∈ COMMON_DECL_KINDS
    ∧ identMatch "bar" = true
    ∧ (traverse defaultConfig (.mk .functionDecl "bar" (some "/inc/a.h") [])
          emptyMap
        = .ok (if defaultIgnoredNamesMatch "bar" = true then emptyMap
               else addTopLevel emptyMap "bar")
       ∧ ∀ s, defaultIgnoredNamesMatch s = true ↔ IgnoredNameSpec s) :=
  ⟨by decide, by decide,
    claim3_default_ignored_names .functionDecl "bar" "/inc/a.h" [] emptyMap
      (by decide) (by decide)⟩

/-- Claim C4: two non-ignored namespace declarations with the same spelling
under the same scope are merged into the same name-tree node — traversing
both is traversing the concatenation of their children starting from the
single fetched-or-created child node — and afterwards the scope's qualified
map binds the name exactly once, an invariant preserved by the generator's
sort, so exactly one namespace block is emitted for it at that scope. -/
theorem claim4_namespace_merging (cfg : CollectorConfig) (S p₁ p₂ : String)
    (kids₁ kids₂ : List Cursor) (nm : ExportedNameMap)
    (h₁ : cfg.includePathsMatch p₁ = true)
    (h₂ : cfg.includePathsMatch p₂ = true)
    (hid : identMatch S = true)
    (hig : cfg.ignoredNamespacesMatch S = false)
    (hcount : (nm.qualified.map Prod.fst).count S ≤ 1) :
    traverseChildren cfg
        [.mk .namespaceDecl S (some p₁) kids₁,
         .mk .namespaceDecl S (some p₂) kids₂] nm
      = (match traverseChildren cfg (kids₁ ++ kids₂)
            ((lookupKey S nm.qualified).getD emptyMap) with
         | .error e => .error e
         | .ok child => .ok (setQualified nm S child))
    ∧ ∀ nm', traverseChildren cfg
          [.mk .namespaceDecl S (some p₁) kids₁,
           .mk .namespaceDecl S (some p₂) kids₂] nm
        = .ok nm' →
      (nm'.qualified.map Prod.fst).count S = 1
      ∧ ((sortPairs nm'.qualified).map Prod.fst).count S = 1 := by
  obtain ⟨top, qual⟩ := nm
  have hcount' : (qual.map Prod.fst).count S ≤ 1 := by
    simpa [ExportedNameMap.qualified] using hcount
  have key : traverseChildren cfg
      [.mk .namespaceDecl S (some p₁) kids₁,
       .mk .namespaceDecl S (some p₂) kids₂] (.mk top qual)
    = (match traverseChildren cfg (kids₁ ++ kids₂)
          ((lookupKey S qual).getD emptyMap) with
       | .error e => .error e
       | .ok child => .ok (setQualified (.mk top qual) S child)) := by
    simp only [traverseChildren]
    rw [traverse_namespace cfg S p₁ kids₁ top qual h₁ hid hig]
    rw [traverseChildren_append]
    cases hA : traverseChildren cfg kids₁ ((lookupKey S qual).getD emptyMap) with
    | error e => rfl
    | ok c1 =>
      dsimp only
      rw [traverse_namespace cfg S p₂ kids₂ top (updateKey S c1 qual) h₂ hid hig]
      rw [lookupKey_updateKey]
      dsimp only [Option.getD_some]
      cases hB : traverseChildren cfg kids₂ c1 with
      | error e => rfl
      | ok c2 =>
        dsimp only [setQualified]
        rw [updateKey_updateKey]
  constructor
  · exact key
  · intro nm' h
    rw [key] at h
    cases hAB : traverseChildren cfg (kids₁ ++ kids₂)
        ((lookupKey S qual).getD emptyMap) with
    | error e =>
      rw [hAB] at h
      cases h
    | ok child =>
      rw [hAB] at h
      have hnm' : nm' = setQualified (.mk top qual) S child := by
        injection h with h'
        exact h'.symm
      subst hnm'
      have hcount1 : (if S ∈ qual.map Prod.fst then qual.map Prod.fst
          else qual.map Prod.fst ++ [S]).count S = 1 := by
        by_cases hm : S ∈ qual.map Prod.fst
        · have hpos : 0 < (qual.map Prod.fst).count S :=
            List.count_pos_iff.mpr hm
          simp only [hm, if_true]
          omega
        · have hz : (qual.map Prod.fst).count S = 0 := List.count_eq_zero.mpr hm
          simp [hm, hz]
      have hq : (setQualified (.mk top qual) S child).qualified
          = updateKey S child qual := rfl
      rw [hq, map_fst_updateKey]
      refine ⟨hcount1, ?_⟩
      have hperm := (perm_sortPairs (updateKey S child qual)).map Prod.fst
      rw [hperm.count_eq S, map_fst_updateKey]
      exact hcount1

/-- Witness for claim C4 at the spec's scenario: namespace `A` declared
twice, containing `one` and `two` respectively, starting from the empty root
scope. -/
theorem claim4_namespace_merging_witness :
    defaultConfig.includePathsMatch "/inc/a.h" = true
    ∧ identMatch "A" = true
    ∧ defaultConfig.ignoredNamespacesMatch "A" = false
    ∧ (emptyMap.qualified.map Prod.fst).count "A" ≤ 1
    ∧ (traverseChildren defaultConfig
        [.mk .namespaceDecl "A" (some "/inc/a.h")
           [.mk .functionDecl "one" (some "/inc/a.h") []],
         .mk .namespaceDecl "A" (some "/inc/a.h")
           [.mk .functionDecl "two" (some "/inc/a.h") []]] emptyMap
        = (match traverseChildren defaultConfig
              ([.mk .functionDecl "one" (some "/inc/a.h") []]
                ++ [.mk .functionDecl "two" (some "/inc/a.h") []])
              ((lookupKey "A" emptyMap.qualified).getD emptyMap) with
           | .error e => .error e
           | .ok child => .ok (setQualified emptyMap "A" child))
       ∧ ∀ nm', traverseChildren defaultConfig
            [.mk .namespaceDecl "A" (some "/inc/a.h")
               [.mk .functionDecl "one" (some "/inc/a.h") []],
             .mk .namespaceDecl "A" (some "/inc/a.h")
               [.mk .functionDecl "two" (some "/inc/a.h") []]] emptyMap
          = .ok nm' →
        (nm'.qualified.map Prod.fst).count "A" = 1
        ∧ ((sortPairs nm'.qualified).map Prod.fst).count "A" = 1) :=
  ⟨rfl, by decide, by decide, by decide,
    claim4_namespace_merging defaultConfig "A" "/inc/a.h" "/inc/a.h"
      [.mk .functionDecl "one" (some "/inc/a.h") []]
      [.mk .functionDecl "two" (some "/inc/a.h") []]
      emptyMap rfl rfl (by decide) (by decide) (by decide)⟩

/-- Claim C5: a namespace declaration whose spelling matches the
ignored-namespace pattern is pruned whole: the traversal returns the current
scope unchanged, so neither the namespace nor anything inside it reaches the
name tree or the generated output. -/
theorem claim5_ignored_namespace_pruning (cfg : CollectorConfig) (S p : String)
    (kids : List Cursor) (nm : ExportedNameMap)
    (hig : cfg.ignoredNamespacesMatch S = true) :
    traverse cfg (.mk .namespaceDecl S (some p) kids) nm = .ok nm := by
  by_cases hp : cfg.includePathsMatch p = true
  · by_cases hid : identMatch S = true
    · simp +decide [traverse, hp, hid, hig]
    · have hid' : identMatch S = false := by simpa using hid
      simp +decide [traverse, hp, hid']
  · have hp' : cfg.includePathsMatch p = false := by simpa using hp
    simp +decide [traverse, hp']

/-- Witness for claim C5: the default-ignored namespace `detail` containing
a function is skipped entirely. -/
theorem claim5_ignored_namespace_pruning_witness :
    defaultConfig.ignoredNamespacesMatch "detail" = true
    ∧ traverse defaultConfig
        (.mk .namespaceDecl "detail" (some "/inc/a.h")
          [.mk .functionDecl "hidden" (some "/inc/a.h") []]) emptyMap
      = .ok emptyMap :=
  ⟨by decide,
    claim5_ignored_namespace_pruning defaultConfig "detail" "/inc/a.h"
      [.mk .functionDecl "hidden" (some "/inc/a.h") []] emptyMap (by decide)⟩

/-- Claim C6: a declaration node whose origin path does not match the
include-path pattern is stopped at, whatever its kind: the traversal returns
the current scope unchanged and never visits the children, so the name
cannot appear anywhere in the output. -/
theorem claim6_path_filtering (cfg : CollectorConfig) (k : CursorKind)
    (S p : String) (kids : List Cursor) (nm : ExportedNameMap)
    (hp : cfg.includePathsMatch p = false) :
    traverse cfg (.mk k S (some p) kids) nm = .ok nm := by
  cases hd : k.isDeclaration with
  | false => simp [traverse, hd]
  | true => simp [traverse, hd, hp]

/-- Witness for claim C6: with the prefix-matching configuration built from
include path `/inc`, a namespace parsed from `/usr/other.h` is excluded even
though it would pass every other filter. -/
theorem claim6_path_filtering_witness :
    (mainConfig "/inc").includePathsMatch "/usr/other.h" = false
    ∧ traverse (mainConfig "/inc")
        (.mk .namespaceDecl "Foo" (some "/usr/other.h")
          [.mk .functionDecl "bar" (some "/usr/other.h") []]) emptyMap
      = .ok emptyMap :=
  ⟨by decide,
    claim6_path_filtering (mainConfig "/inc") .namespaceDecl "Foo" "/usr/other.h"
      [.mk .functionDecl "bar" (some "/usr/other.h") []] emptyMap (by decide)⟩

/-- Claim C7: leaf-kind declarations are never recursed into — the traversal
result does not depend on the node's children at all, so no member declared
inside a struct/class/union/enum/function/alias/template body can ever be
recorded. -/
theorem claim7_leaf_opacity (cfg : CollectorConfig) (k : CursorKind)
    (S : String) (f : Option String) (kids kids' : List Cursor)
    (nm : ExportedNameMap) (hk : k ∈ COMMON_DECL_KINDS) :
    traverse cfg (.mk k S f kids) nm = traverse cfg (.mk k S f kids') nm := by
  obtain ⟨hd, _, _⟩ := common_facts hk
  cases f with
  | none => simp [traverse, hd]
  | some p =>
    rw [traverse_leaf cfg k S p kids nm hk, traverse_leaf cfg k S p kids' nm hk]

/-- Witness for claim C7: a struct with a member function body yields the
same result as the same struct with no children. -/
theorem claim7_leaf_opacity_witness :
    CursorKind.structDecl ∈ COMMON_DECL_KINDS
    ∧ traverse defaultConfig
        (.mk .structDecl "Widget" (some "/inc/a.h")
          [.mk .functionDecl "member" (some "/inc/a.h") []]) emptyMap
      = traverse defaultConfig (.mk .structDecl "Widget" (some "/inc/a.h") [])
          emptyMap :=
  ⟨by decide,
    claim7_leaf_opacity defaultConfig .structDecl "Widget" (some "/inc/a.h")
      [.mk .functionDecl "member" (some "/inc/a.h") []] [] emptyMap (by decide)⟩

/-- Claim C8: at every scope the generator first emits one re-export line
per top-level name, ordered case-insensitively (sorted by the lowercase
form, a sorted permutation of the stored names), each qualified by the
current fully-qualified prefix; then one namespace block per qualified
entry, ordered case-insensitively by namespace name, recursing with the
prefix extended by `name ++ "::"`. -/
theorem claim8_generator_sorting (stack : List String) (top : List String)
    (qual : List (String × ExportedNameMap)) :
    genImpl stack (.mk top qual)
      = (sortNames top).map (fun n => "using " ++ stack.getLastD "" ++ n ++ ";")
        ++ genBlocks stack (stack.getLastD "") (sortPairs qual)
    ∧ (sortNames top).Pairwise (fun a b => lowerLe a b = true)
    ∧ (sortNames top).Perm top
    ∧ (sortPairs qual).Pairwise (fun a b => lowerLe a.1 b.1 = true)
    ∧ (sortPairs qual).Perm qual
    ∧ ∀ pfx ns inner rest,
        genBlocks stack pfx ((ns, inner) :: rest)
          = ("namespace " ++ ns ++ " \x7b")
              :: (genImpl (stack ++ [pfx ++ ns ++ "::"]) inner ++ ["\x7d"])
              ++ genBlocks stack pfx rest :=
  ⟨genImpl_eq stack top qual, pairwise_sortNames top, perm_sortNames top,
    pairwise_sortPairs qual, perm_sortPairs qual,
    fun pfx ns inner rest => genBlocks_cons stack pfx ns inner rest⟩

/-- Claim C9: the generated artifact is exactly one outer export block —
the opening marker, the rendered root scope, the closing marker — and every
line of the rendered scope is one of the two statement forms (a qualified
`using` re-export or a namespace block opening/closing marker); in
particular no inner line repeats the export opening marker. -/
theorem claim9_output_grammar (nm : ExportedNameMap) :
    generate_exports_from_name_map nm
      = "export \x7b" :: genImpl ["::"] nm ++ ["\x7d"]
    ∧ (∀ l ∈ genImpl ["::"] nm, ExportLine l)
    ∧ (genImpl ["::"] nm).count "export \x7b" = 0 := by
  refine ⟨rfl, ?_, ?_⟩
  · exact fun l hl =>
      (exportLine_aux (sizeOf nm)).1 nm ["::"] (le_refl _) l hl
  · refine List.count_eq_zero.mpr ?_
    intro hmem
    exact exportLine_ne_export
      ((exportLine_aux (sizeOf nm)).1 nm ["::"] (le_refl _) _ hmem) rfl

/-- Claim C10: a namespace passing the path, identifier and
ignored-namespace filters gets its entry in the enclosing scope's qualified
map unconditionally — if traversal of its children succeeds, the spelling is
a key of the result; if the children contribute nothing, the entry is the
unchanged (for a fresh namespace: empty) child node — and the generator
renders an empty child node as an empty namespace block. -/
theorem claim10_empty_namespace_entry (cfg : CollectorConfig) (S p : String)
    (kids : List Cursor) (nm nm' : ExportedNameMap)
    (hp : cfg.includePathsMatch p = true) (hid : identMatch S = true)
    (hig : cfg.ignoredNamespacesMatch S = false)
    (h : traverse cfg (.mk .namespaceDecl S (some p) kids) nm = .ok nm') :
    S ∈ nm'.qualified.map Prod.fst
    ∧ (traverseChildren cfg kids ((lookupKey S nm.qualified).getD emptyMap)
          = .ok ((lookupKey S nm.qualified).getD emptyMap) →
        nm' = setQualified nm S ((lookupKey S nm.qualified).getD emptyMap))
    ∧ ∀ T, generate_exports_from_name_map (.mk [] [(T, emptyMap)])
        = ["export \x7b", "namespace " ++ T ++ " \x7b", "\x7d", "\x7d"] := by
  obtain ⟨top, qual⟩ := nm
  rw [traverse_namespace cfg S p kids top qual hp hid hig] at h
  cases hA : traverseChildren cfg kids ((lookupKey S qual).getD emptyMap) with
  | error e =>
    rw [hA] at h
    cases h
  | ok child =>
    rw [hA] at h
    have hnm' : nm' = ExportedNameMap.mk top (updateKey S child qual) := by
      injection h with h'
      exact h'.symm
    subst hnm'
    refine ⟨?_, ?_, ?_⟩
    · have hq : (ExportedNameMap.mk top (updateKey S child qual)).qualified
          = updateKey S child qual := rfl
      rw [hq, map_fst_updateKey]
      by_cases hm : S ∈ qual.map Prod.fst
      · simp only [hm, if_true]
      · simp [hm]
    · intro hsame
      have hchild : child = (lookupKey S qual).getD emptyMap :=
        Except.ok.inj (hA.symm.trans hsame)
      subst hchild
      rfl
    · intro T
      simp [generate_exports_from_name_map, genImpl_eq, genBlocks_cons,
        sortNames, sortPairs, sortListBy, insertBy, emptyMap, genBlocks]

/-- Witness for claim C10: namespace `N` whose only child is filtered out by
the ignored-name rule still produces (and keeps) an empty entry, and an
empty node renders as an empty namespace block. -/
theorem claim10_empty_namespace_entry_witness :
    defaultConfig.includePathsMatch "/inc/a.h" = true
    ∧ identMatch "N" = true
    ∧ defaultConfig.ignoredNamespacesMatch "N" = false
    ∧ (traverse defaultConfig
        (.mk .namespaceDecl "N" (some "/inc/a.h")
          [.mk .functionDecl "_hidden" (some "/inc/a.h") []]) emptyMap
        = .ok (.mk [] [("N", emptyMap)]))
    ∧ ("N" ∈ (ExportedNameMap.mk [] [("N", emptyMap)]).qualified.map Prod.fst
       ∧ (traverseChildren defaultConfig
            [.mk .functionDecl "_hidden" (some "/inc/a.h") []]
            ((lookupKey "N" emptyMap.qualified).getD emptyMap)
            = .ok ((lookupKey "N" emptyMap.qualified).getD emptyMap) →
          ExportedNameMap.mk [] [("N", emptyMap)]
            = setQualified emptyMap "N"
                ((lookupKey "N" emptyMap.qualified).getD emptyMap))
       ∧ ∀ T, generate_exports_from_name_map (.mk [] [(T, emptyMap)])
          = ["export \x7b", "namespace " ++ T ++ " \x7b", "\x7d", "\x7d"]) := by
  have htrav : traverse defaultConfig
      (.mk .namespaceDecl "N" (some "/inc/a.h")
        [.mk .functionDecl "_hidden" (some "/inc/a.h") []]) emptyMap
      = .ok (.mk [] [("N", emptyMap)]) := by
    simp +decide [traverse, traverseChildren, emptyMap, lookupKey, updateKey,
      setQualified, ExportedNameMap.qualified]
  exact ⟨rfl, by decide, by decide, htrav,
    claim10_empty_namespace_entry defaultConfig "N" "/inc/a.h"
      [.mk .functionDecl "_hidden" (some "/inc/a.h") []]
      emptyMap (.mk [] [("N", emptyMap)]) rfl (by decide) (by decide) htrav⟩

end Automodwrap
